import Mathlib

/-!
Verification development for the stream-aggregation addon
(`index.js`, `src/premiumize.js`, `src/const*.js`).

The JavaScript source is shallowly embedded: pure computations become Lean
functions over `List Char` / `String`, numbers become `Nat` / `Int` (sizes in
bytes or MB are integers; the only float arithmetic in scope, `file.size /
(1024*1024)` compared against integer thresholds, is exact for powers of two,
so it is modelled by exact integer comparisons), JavaScript objects become
structures with `Option` fields where the source may leave a field undefined,
and fallible provider calls become `Option`/`Except`-valued oracles passed in
as parameters.  `Array.prototype.sort` with a comparator that is a total
preorder is stable (ES2019); it is modelled by `List.insertionSort` with the
relation `cmp a b ≤ 0`, which is also a stable sort, and stable sorts for a
total preorder agree on all inputs.
-/

/-! ### Character and string utilities -/

/-- JavaScript `String.prototype.toLowerCase` restricted to ASCII, which is the
only case mapping exercised by the filenames and hashes in scope. -/
def lowerChars (s : List Char) : List Char := s.map Char.toLower

/-- `toLowerCase` on a `String`. -/
def lowerStr (s : String) : String := String.mk (lowerChars s.data)

/-- JavaScript truthiness for a possibly-undefined string field:
`undefined`/`null` and the empty string are falsy. -/
def truthyS : Option String → Bool
  | none => false
  | some s => s ≠ ""

/-- `haystack.includes(needle)` on char lists. -/
def containsSub (needle hay : List Char) : Bool :=
  hay.tails.any (fun t => needle.isPrefixOf t)

/-- `haystack.includes(needle)` with a string needle. -/
def containsStr (needle : String) (hay : List Char) : Bool :=
  containsSub needle.data hay

/-- Decimal digit characters of a natural number (JS number-to-string
interpolation in the template-literal regexes). -/
def natChars (n : Nat) : List Char := Nat.toDigits 10 n

/-- `n.toString().padStart(2, '0')`. -/
def pad2 (n : Nat) : List Char :=
  let d := natChars n
  if d.length < 2 then '0' :: d else d

/-- The JavaScript regex class `\s` (whitespace), ASCII approximation. -/
def isWsC (c : Char) : Bool :=
  c = ' ' || c = '\t' || c = '\n' || c = '\r' || c = '\x0b' || c = '\x0c'

/-- Case-insensitive character equality (ASCII). -/
def ciEq (a b : Char) : Bool := a.toLower = b.toLower

/-- Case-insensitive literal prefix test. -/
def ciPrefix : List Char → List Char → Bool
  | [], _ => true
  | _ :: _, [] => false
  | p :: ps, c :: cs => ciEq p c && ciPrefix ps cs

/-- Match a literal (already-lowercased pattern against lowercased input),
then continue with `k` on the rest. -/
def litThen (pat : List Char) (k : List Char → Bool) (s : List Char) : Bool :=
  pat.isPrefixOf s && k (s.drop pat.length)

/-- Try `p` at every start position (regex left-to-right scan). -/
def anyTail (p : List Char → Bool) : List Char → Bool
  | [] => p []
  | c :: cs => p (c :: cs) || anyTail p cs

/-- Regex `\s*` followed by `k`, with backtracking (existential semantics). -/
def skipWs (k : List Char → Bool) : List Char → Bool
  | [] => k []
  | c :: cs => k (c :: cs) || (isWsC c && skipWs k cs)

/-- Regex `.*` followed by `k`; `.` does not match a newline. -/
def skipAny (k : List Char → Bool) : List Char → Bool
  | [] => k []
  | c :: cs => k (c :: cs) || (c ≠ '\n' && skipAny k cs)

/-- Substring containment of a lowercase literal pattern. -/
def containsLit (pat : String) (s : List Char) : Bool :=
  anyTail (fun t => pat.data.isPrefixOf t) s

/-! ### Regex fragments shared by `index.js`

`/btih:([a-f0-9]+)/i` (hash recovery in `getStreams`),
`/\d{3,4}p|4k|uhd|HDTS|CAM/i` (quality fallback) and
`/\d+(\.\d+)?\s*(GB|MB)/i` (size fallback) are implemented with the regex
engine's leftmost-first semantics: positions are scanned left to right and at
each position the alternatives are tried in source order. -/

/-- Hexadecimal digit as matched case-insensitively by `[a-f0-9]` with `/i`. -/
def isHexCi (c : Char) : Bool :=
  c.isDigit || (('a' ≤ c && c ≤ 'f') || ('A' ≤ c && c ≤ 'F'))

/-- `magnetLink.match(/btih:([a-f0-9]+)/i)?.[1]?.toLowerCase()`: the captured
maximal hex run after the first `btih:` occurrence followed by at least one hex
character, lowercased. -/
def findBtih : List Char → Option (List Char)
  | [] => none
  | c :: cs =>
    let t := c :: cs
    if ciPrefix "btih:".data t then
      let rest := t.drop 5
      let hexRun := rest.takeWhile isHexCi
      if hexRun.isEmpty then findBtih cs else some (lowerChars hexRun)
    else findBtih cs

/-- One alternative step of `/\d{3,4}p|4k|uhd|HDTS|CAM/i` at a fixed position:
returns the match length. `\d{3,4}` is greedy (four digits tried first). -/
def qualityAlt (t : List Char) : Option Nat :=
  let digs := (t.takeWhile Char.isDigit).length
  if 4 ≤ digs && ciPrefix ['p'] (t.drop 4) then some 5
  else if 3 ≤ digs && ciPrefix ['p'] (t.drop 3) then some 4
  else if ciPrefix "4k".data t then some 2
  else if ciPrefix "uhd".data t then some 3
  else if ciPrefix "hdts".data t then some 4
  else if ciPrefix "cam".data t then some 3
  else none

/-- Generic leftmost-first scan returning the matched text. -/
def scanFirst (alt : List Char → Option Nat) : List Char → Option (List Char)
  | [] => (alt []).map (fun _ => [])
  | c :: cs =>
    match alt (c :: cs) with
    | some n => some ((c :: cs).take n)
    | none => scanFirst alt cs

/-- `text.match(/\d{3,4}p|4k|uhd|HDTS|CAM/i)?.[0]`. -/
def matchQuality (s : String) : Option String :=
  (scanFirst qualityAlt s.data).map String.mk

/-- `(GB|MB)` chunk of the size regex, preceded by `\s*`. -/
def sizeUnitAlt (t : List Char) : Option Nat :=
  let w := (t.takeWhile isWsC).length
  let u := t.drop w
  if ciPrefix "gb".data u || ciPrefix "mb".data u then some (w + 2) else none

/-- One alternative of `/\d+(\.\d+)?\s*(GB|MB)/i` at a fixed position.  The
optional fractional group is greedy and backtracks. -/
def sizeAlt (t : List Char) : Option Nat :=
  let d := (t.takeWhile Char.isDigit).length
  if d = 0 then none
  else
    let t1 := t.drop d
    let withFrac : Option Nat :=
      match t1 with
      | '.' :: r =>
        let e := (r.takeWhile Char.isDigit).length
        if e = 0 then none
        else (sizeUnitAlt (r.drop e)).map (fun m => d + 1 + e + m)
      | _ => none
    match withFrac with
    | some n => some n
    | none => (sizeUnitAlt t1).map (fun m => d + m)

/-- `text.match(/\d+(\.\d+)?\s*(GB|MB)/i)?.[0]`. -/
def matchSize (s : String) : Option String :=
  (scanFirst sizeAlt s.data).map String.mk

/-! ### `index.js`: final response ranking (stream endpoint STEP 6)

```js
const sortedStreams = formattedStreams
    .sort((a, b) => {
        if (a.quality !== b.quality) return b.quality - a.quality;
        return b.size - a.size;
    })
    .slice(0, 50);
```

`quality` and `size` of a formatted stream are the numbers
`parseQuality(stream.filename)` / `parseSize(stream.filename)`; the ranking
reads only these two numeric fields, so the embedding quantifies over streams
with arbitrary integer `quality`/`size` values. -/

structure FmtStream where
  name : String
  title : String
  url : String
  service : String
  quality : Int
  size : Int
deriving DecidableEq

/-- The comparator of the final sort, as the relation `cmp a b ≤ 0`
("`a` may come at or before `b`"). -/
def fsLe (a b : FmtStream) : Prop :=
  b.quality < a.quality ∨ (a.quality = b.quality ∧ b.size ≤ a.size)

instance : DecidableRel fsLe := fun a b => by
  unfold fsLe; infer_instance

instance : IsTotal FmtStream fsLe where
  total a b := by
    unfold fsLe
    rcases lt_trichotomy a.quality b.quality with h | h | h
    · exact Or.inr (Or.inl h)
    · rcases le_total b.size a.size with hs | hs
      · exact Or.inl (Or.inr ⟨h, hs⟩)
      · exact Or.inr (Or.inr ⟨h.symm, hs⟩)
    · exact Or.inl (Or.inl h)

instance : IsTrans FmtStream fsLe where
  trans a b c hab hbc := by
    unfold fsLe at *
    rcases hab with h1 | ⟨hq1, hs1⟩ <;> rcases hbc with h2 | ⟨hq2, hs2⟩
    · exact Or.inl (h2.trans h1)
    · exact Or.inl (hq2 ▸ h1)
    · exact Or.inl (hq1 ▸ h2)
    · exact Or.inr ⟨hq1.trans hq2, hs2.trans hs1⟩

/-- STEP 6 of the stream endpoint: sort the formatted streams with the quality
then size comparator and truncate to the top 50. -/
def sortedStreams (l : List FmtStream) : List FmtStream :=
  (List.insertionSort fsLe l).take 50

/-! The ideal-size-band order of `sortStreams` (`index.js` lines 242-284),
which the spec names as the final-response order.  Sizes are in MB. -/

/-- Lower edge of the ideal size band per quality tier. -/
def idealMin (q : Int) : Int :=
  if q = 2160 then 10000
  else if q = 1080 then 2000
  else if q = 720 then 1000
  else if q = 480 then 500
  else 0

/-- Upper edge of the ideal size band per quality tier; `none` is the
`Infinity` of the default range. -/
def idealMax (q : Int) : Option Int :=
  if q = 2160 then some 80000
  else if q = 1080 then some 16000
  else if q = 720 then some 8000
  else if q = 480 then some 4000
  else none

/-- `getIdealScore(size, range)`: 0 inside the band, otherwise the gap to the
nearest band edge. -/
def idealScore (q size : Int) : Int :=
  let mn := idealMin q
  match idealMax q with
  | none => if mn ≤ size then 0 else mn - size
  | some mx =>
    if mn ≤ size ∧ size ≤ mx then 0
    else if size < mn then mn - size
    else size - mx

/-- The comparator of `sortStreams` as a "`a` may come at or before `b`"
relation: quality tier descending, then ideal-band distance ascending, then
size descending.  As in the source, the band is taken from the left operand's
tier (the branch only matters when the tiers are equal). -/
def bandLe (a b : FmtStream) : Prop :=
  b.quality < a.quality ∨
    (a.quality = b.quality ∧
      (idealScore a.quality a.size < idealScore a.quality b.size ∨
        (idealScore a.quality a.size = idealScore a.quality b.size ∧
          b.size ≤ a.size)))

instance : DecidableRel bandLe := fun a b => by
  unfold bandLe; infer_instance

/-! ### Association lists modelling plain JavaScript objects

`results[hash] = v` overwrites in place (the key keeps its original insertion
position); `Object.values` returns values in key-insertion order. -/

/-- First-match lookup. -/
def alGet {β : Type} : List (String × β) → String → Option β
  | [], _ => none
  | (k, v) :: m, h => if k = h then some v else alGet m h

/-- JavaScript object assignment `m[k] = v`. -/
def upsert {β : Type} (m : List (String × β)) (k : String) (v : β) :
    List (String × β) :=
  if m.any (fun p => p.1 = k) then
    m.map (fun p => if p.1 = k then (k, v) else p)
  else m ++ [(k, v)]

/-! ### `index.js`: `getStreams` result aggregation (lines 744-784)

The network fan-out is out of scope; the embedding starts from the
`Promise.allSettled` outcome: one `Option (List RawStream)` per backend
(`none` = rejected). -/

/-- One backend result element; every field may be absent. -/
structure RawStream where
  title : Option String
  filename : Option String
  magnetLink : Option String
  quality : Option String
  size : Option String
  source : Option String
deriving DecidableEq

/-- A combined (deduplicated) stream candidate as pushed onto
`combinedResults`. -/
structure Candidate where
  hash : String
  magnetLink : String
  filename : String
  websiteTitle : String
  quality : String
  size : String
  source : String
deriving DecidableEq

/-- `stream.title?.split('\n')[0]?.trim()` (ASCII whitespace trim). -/
def firstLineTrim (s : String) : String :=
  let l := s.data.takeWhile (fun c => c ≠ '\n')
  String.mk (((l.dropWhile isWsC).reverse.dropWhile isWsC).reverse)

/-- The info hash recovered from a candidate, exactly as the dedup loop does:
skip falsy `magnetLink`, else the lowercased `btih:` capture. -/
def hashOf (s : RawStream) : Option String :=
  if truthyS s.magnetLink then (findBtih (s.magnetLink.getD "").data).map String.mk
  else none

/-- The record pushed for a surviving candidate (field fallbacks as in the
source). -/
def mkCandidate (s : RawStream) (h : String) : Candidate :=
  let filename :=
    if truthyS s.filename then s.filename.getD ""
    else
      let t := s.title.map firstLineTrim
      if truthyS t then t.getD "" else "Unknown"
  { hash := h
    magnetLink := s.magnetLink.getD ""
    filename := filename
    websiteTitle := if truthyS s.title then s.title.getD "" else filename
    quality :=
      if truthyS s.quality then s.quality.getD ""
      else (s.title.bind matchQuality).getD ""
    size :=
      if truthyS s.size then s.size.getD ""
      else (s.title.bind matchSize).getD ""
    source := if truthyS s.source then s.source.getD "" else "Unknown" }

/-- The dedup loop over one flattened result list; `seen` is `seenMagnets`. -/
def combineStreams (seen : List String) : List RawStream → List Candidate
  | [] => []
  | s :: t =>
    match hashOf s with
    | none => combineStreams seen t
    | some h =>
      if h ∈ seen then combineStreams seen t
      else mkCandidate s h :: combineStreams (h :: seen) t

/-- The aggregation core of `getStreams`: keep fulfilled backend results,
process them in order, deduplicate by info hash. -/
def getStreamsCombine (allResults : List (Option (List RawStream))) :
    List Candidate :=
  combineStreams [] (allResults.filterMap id).flatten

/-- First-seen deduplication of a hash list (specification-side mirror of the
`seenMagnets` behaviour). -/
def dedupFirst (seen : List String) : List String → List String
  | [] => []
  | h :: t => if h ∈ seen then dedupFirst seen t else h :: dedupFirst (h :: seen) t

/-- Number of candidates whose hash also occurs earlier (the claim's `M`). -/
def countDupes (seen : List String) : List String → Nat
  | [] => 0
  | h :: t => if h ∈ seen then 1 + countDupes seen t else countDupes (h :: seen) t

/-! ### `index.js`: `checkCacheStatuses` merge + `serviceStreams` filter
(lines 364-413 and 516-522)

The provider call `service.checkCacheStatuses(hashes)` is abstracted as a
mapping `svc : String → Option SvcCacheResult` (`none` = hash absent from the
returned object); only the `cached` field of a provider result is consumed by
this code (the object spread copies the rest verbatim). -/

/-- A per-hash provider result; `cached` may be absent (`undefined`). -/
structure SvcCacheResult where
  cached : Option Bool
deriving DecidableEq

/-- A stream candidate as fed to the cache check. -/
structure CandStream where
  hash : Option String
  magnetLink : Option String
  filename : Option String
  websiteTitle : Option String
  quality : Option String
  size : Option String
  source : Option String
deriving DecidableEq

/-- An entry of the merged `cacheMap`. -/
structure CacheEntry where
  hash : String
  magnetLink : Option String
  filename : String
  websiteTitle : String
  quality : String
  size : String
  source : String
  cached : Bool
deriving DecidableEq

/-- The lowercased hash key of a candidate. -/
def lowHash (s : CandStream) : String := lowerStr (s.hash.getD "")

/-- The `cacheMap[hash]` record built for a candidate whose provider result is
`r`; note `cached: result.cached !== false`. -/
def mkCacheEntry (s : CandStream) (r : SvcCacheResult) : CacheEntry :=
  let filename := if truthyS s.filename then s.filename.getD "" else "Unknown"
  { hash := lowHash s
    magnetLink := s.magnetLink
    filename := filename
    websiteTitle := if truthyS s.websiteTitle then s.websiteTitle.getD "" else filename
    quality :=
      if truthyS s.quality then s.quality.getD ""
      else (s.filename.bind matchQuality).getD ""
    size :=
      if truthyS s.size then s.size.getD ""
      else (s.filename.bind matchSize).getD ""
    source := if truthyS s.source then s.source.getD "" else "Unknown"
    cached := !decide (r.cached = some false) }

/-- The `validStreams.forEach` loop building `cacheMap`. -/
def buildCacheMapGo (svc : String → Option SvcCacheResult)
    (m : List (String × CacheEntry)) : List CandStream → List (String × CacheEntry)
  | [] => m
  | s :: t =>
    match svc (lowHash s) with
    | none => buildCacheMapGo svc m t
    | some r => buildCacheMapGo svc (upsert m (lowHash s) (mkCacheEntry s r)) t

/-- `checkCacheStatuses(service, streams)` of `index.js` (happy path): filter
valid streams, look up each hash in the provider results, build `cacheMap`. -/
def checkCacheStatusesMerge (svc : String → Option SvcCacheResult)
    (streams : List CandStream) : List (String × CacheEntry) :=
  buildCacheMapGo svc [] (streams.filter (fun s => truthyS s.hash))

/-- STEP 2 of the stream endpoint: `Object.values(cacheMap).filter(stream =>
stream && stream.hash && stream.cached)`. -/
def serviceStreamsOf (svc : String → Option SvcCacheResult)
    (streams : List CandStream) : List CacheEntry :=
  ((checkCacheStatusesMerge svc streams).map Prod.snd).filter
    (fun e => e.hash ≠ "" && e.cached)

/-- Specification-side form of the retained set: one entry per valid stream
whose provider result exists and whose `cached` field is not `false`. -/
def retainedSpec (svc : String → Option SvcCacheResult)
    (streams : List CandStream) : List CacheEntry :=
  (streams.filter (fun s => truthyS s.hash)).filterMap (fun s =>
    match svc (lowHash s) with
    | none => none
    | some r =>
      if decide (r.cached ≠ some false) then some (mkCacheEntry s r) else none)

/-! ### `index.js`: magnet resolution handler (lines 833-1031)

Each debrid service is an oracle: `resolve magnet` is the outcome of the
provider resolution call for that magnet (`Except.error` = thrown,
`.ok none` = returned `null`/falsy, `.ok (some url)` = returned `url`).  The
handler branches on the service class name; the enhanced Premiumize branches
redirect on any truthy URL, the generic branch (`getValidStreamingUrl`)
catches errors and additionally requires an `http` prefix. -/

structure SvcModel where
  name : String
  resolve : String → Except String (Option String)

/-- `url.startsWith('http')` (kernel-computable form). -/
def httpPrefix (url : String) : Bool := "http".data.isPrefixOf url.data

/-- One provider attempt for one magnet inside the handler loops. -/
def attemptService (s : SvcModel) (magnet : String) : Option String :=
  if s.name = "Premiumize" then
    match s.resolve magnet with
    | .error _ => none
    | .ok none => none
    | .ok (some url) => if url = "" then none else some url
  else
    match s.resolve magnet with
    | .error _ => none
    | .ok none => none
    | .ok (some url) => if url ≠ "" && httpPrefix url then some url else none

/-- Walk the configured services in order; first truthy URL wins. -/
def firstSuccess (services : List SvcModel) (magnet : String) : Option String :=
  match services with
  | [] => none
  | s :: t =>
    match attemptService s magnet with
    | some u => some u
    | none => firstSuccess t magnet

/-- A stream stored in the fallback `streamCache`. -/
structure FallbackStream where
  hash : String
  magnetLink : String
  filename : String
  websiteTitle : String
  quality : String
  size : String
  source : String
  service : String
deriving DecidableEq

/-- Modelled from the spec: `parseQuality` lives in `src/util.js`, which is
not among the sources; per the spec the quality is pattern-matched from the
text into the numeric tiers 2160/1080/720/480, unparseable text giving 0. -/
def parseQuality (s : String) : Int :=
  let t := lowerChars s.data
  if containsLit "2160p" t || containsLit "4k" t || containsLit "uhd" t then 2160
  else if containsLit "1080p" t then 1080
  else if containsLit "720p" t then 720
  else if containsLit "480p" t then 480
  else 0

/-- The fallback sort comparator `(a, b) => qualityB - qualityA` as a
"may come at or before" relation. -/
def fbQualityLe (a b : FallbackStream) : Prop :=
  parseQuality b.filename ≤ parseQuality a.filename

instance : DecidableRel fbQualityLe := fun a b => by
  unfold fbQualityLe; infer_instance

/-- Modelled from the spec: `extractInfoHash` lives in `src/util.js`, which is
not among the sources; per the spec glossary (and the in-repo
`Premiumize.extractInfoHash`) it recovers the first 40-hex-character `btih:`
capture. -/
def btih40 : List Char → Option (List Char)
  | [] => none
  | c :: cs =>
    let t := c :: cs
    if ciPrefix "btih:".data t then
      let h := (t.drop 5).take 40
      if h.length = 40 && h.all isHexCi then some h else btih40 cs
    else btih40 cs

/-- Modelled from the spec (see `btih40`): `extractInfoHash(magnetLink)`. -/
def extractInfoHash (magnet : String) : Option String :=
  (btih40 magnet.data).map String.mk

/-- What the handler sends back: a redirect, or the 404 JSON body
`{ error: 'Stream not available', details }` produced by the catch block. -/
inductive HandlerResponse where
  | redirect (url : String)
  | notAvailable (details : String)
deriving DecidableEq

/-- Walk the sorted fallback streams; for each, try all services. -/
def tryFallbacks (services : List SvcModel) :
    List FallbackStream → Option String
  | [] => none
  | fb :: t =>
    match firstSuccess services fb.magnetLink with
    | some u => some u
    | none => tryFallbacks services t

/-- The magnet handler (`app.get('/:apiKeys/:encodedData')`) after token
decoding: try the primary magnet with every service, then the sorted fallback
list, and fail with the single catch-all 404 body.  Totality of this function
is the embedded form of "no uncaught exception escapes the handler". -/
def magnetHandler (services : List SvcModel) (magnetLink : String)
    (cacheKey : Option String)
    (streamCache : List (String × List FallbackStream)) : HandlerResponse :=
  if services.isEmpty then
    .notAvailable "No valid debrid service configured"
  else
    match extractInfoHash magnetLink with
    | none => .notAvailable "Invalid magnet link - no BTIH hash found"
    | some h =>
      let hash := lowerStr h
      match firstSuccess services magnetLink with
      | some url => .redirect url
      | none =>
        match cacheKey.bind (fun k => alGet streamCache k) with
        | some cachedStreams =>
          let sortedFallbacks :=
            List.insertionSort fbQualityLe
              (cachedStreams.filter (fun st => st.hash ≠ hash))
          match tryFallbacks services sortedFallbacks with
          | some url => .redirect url
          | none => .notAvailable "No cached stream available from any debrid service"
        | none => .notAvailable "No cached stream available from any debrid service"

/-! ### `src/premiumize.js`: file selection and batched cache check

`getFileList` constructs file records from the DirectDL response; file lists
are inputs here.  Sizes are in bytes. -/

namespace Premiumize

/-- A file record as built by `getFileList`. -/
structure PMFile where
  path : String
  size : Nat
  link : String
  stream_link : String
  isVideo : Bool
  isSubtitle : Bool
  extension : String
deriving DecidableEq

/-- The lowercased path used by all matchers. -/
def fileName (f : PMFile) : List Char := lowerChars f.path.data

/-- The penalised "extras" keywords. -/
def badKeywords : List String :=
  ["sample", "trailer", "preview", "extras", "bonus",
   "deleted", "behind", "making", "interview", "featurette"]

/-- `scoreMovieFile(file)`.  `file.size / (1024*1024) > T` is exact integer
comparison `size > T * 1048576` (binary float division by `2^20` is exact). -/
def scoreMovieFile (f : PMFile) : Int :=
  let filename := fileName f
  let sizeScore : Int :=
    (if f.size > 500 * 1048576 then 300 else 0) +
    (if f.size > 1000 * 1048576 then 200 else 0) +
    (if f.size > 2000 * 1048576 then 150 else 0) +
    (if f.size > 5000 * 1048576 then 100 else 0)
  let extrasPenalty : Int :=
    if badKeywords.any (fun kw => containsStr kw filename) then 800 else 0
  let formatScore : Int :=
    (if f.extension = "mkv" then 50 else 0) +
    (if f.extension = "mp4" then 40 else 0)
  let pathDepth := (f.path.data.filter (fun c => c = '/')).length + 1
  let depthScore : Int := if pathDepth ≤ 2 then 100 else 0
  100 + sizeScore - extrasPenalty + formatScore + depthScore

/-- The comparator `(a, b) => b.score - a.score` as a "may come at or before"
relation. -/
def movieLe (a b : PMFile) : Prop := scoreMovieFile b ≤ scoreMovieFile a

instance : DecidableRel movieLe := fun a b => by
  unfold movieLe; infer_instance

/-- `findBestMovieFile(files)`: filter videos, sort by score descending
(stable), take the front.  The source decorates each file with its score and
returns the decorated object; the selection of the underlying file is
identical. -/
def findBestMovieFile (files : List PMFile) : Option PMFile :=
  let videoFiles := files.filter (fun f => f.isVideo)
  if videoFiles.isEmpty then none
  else (List.insertionSort movieLe videoFiles).head?

/-- One step of the specification-side selector: keep the better-scoring file,
the current one on ties. -/
def pickBetter (k : PMFile → Int) (acc : Option PMFile) (f : PMFile) : Option PMFile :=
  match acc with
  | none => some f
  | some b => if k f > k b then some f else some b

/-- Specification-side selector: the first file attaining the maximal score
(left fold, replacing only on strictly greater score). -/
def firstMaxBy (k : PMFile → Int) (l : List PMFile) : Option PMFile :=
  l.foldl (pickBetter k) none

/-! Episode patterns.  All matchers run on the lowercased path, so the
case-insensitive letters of the template-literal regexes are matched
literally. -/

/-- Pattern 1: `s${pad2 S}[.\-\s]?e${pad2 E}[^\d]`. -/
def epPatExact1 (S E : Nat) (name : List Char) : Bool :=
  anyTail (litThen ('s' :: pad2 S) (fun t =>
    let ePart := litThen ('e' :: pad2 E) (fun u =>
      match u with
      | d :: _ => !d.isDigit
      | [] => false)
    ePart t ||
      (match t with
       | c :: cs => (c = '.' || c = '-' || isWsC c) && ePart cs
       | [] => false))) name

/-- Pattern 2: `s${S}e${E}` (unpadded). -/
def epPatExact2 (S E : Nat) (name : List Char) : Bool :=
  containsSub (('s' :: natChars S) ++ ('e' :: natChars E)) name

/-- Pattern 3: `season\s*${S}.*episode\s*${E}`. -/
def epPatExact3 (S E : Nat) (name : List Char) : Bool :=
  anyTail (litThen "season".data (skipWs (litThen (natChars S)
    (skipAny (litThen "episode".data (skipWs (litThen (natChars E)
      (fun _ => true)))))))) name

/-- Pattern 4: `${S}x${pad2 E}`. -/
def epPatExact4 (S E : Nat) (name : List Char) : Bool :=
  containsSub (natChars S ++ ('x' :: pad2 E)) name

/-- Pattern 5: `[^0-9]${S}${pad2 E}[^0-9]`. -/
def epPatExact5 (S E : Nat) (name : List Char) : Bool :=
  anyTail (fun t =>
    match t with
    | c :: cs =>
      !c.isDigit && litThen (natChars S ++ pad2 E) (fun u =>
        match u with
        | d :: _ => !d.isDigit
        | [] => false) cs
    | [] => false) name

/-- First-pass (exact) episode match: any of the five patterns. -/
def exactEpMatch (S E : Nat) (name : List Char) : Bool :=
  epPatExact1 S E name || epPatExact2 S E name || epPatExact3 S E name ||
  epPatExact4 S E name || epPatExact5 S E name

/-- Loose pattern 1: `s${pad2 S}.*e${pad2 E}`. -/
def epLoose1 (S E : Nat) (name : List Char) : Bool :=
  anyTail (litThen ('s' :: pad2 S) (skipAny (litThen ('e' :: pad2 E)
    (fun _ => true)))) name

/-- Loose pattern 2: `season.*${S}.*episode.*${E}`. -/
def epLoose2 (S E : Nat) (name : List Char) : Bool :=
  anyTail (litThen "season".data (skipAny (litThen (natChars S)
    (skipAny (litThen "episode".data (skipAny (litThen (natChars E)
      (fun _ => true)))))))) name

/-- `/sample|trailer/i`. -/
def sampleOrTrailer (name : List Char) : Bool :=
  containsLit "sample" name || containsLit "trailer" name

/-- Second-pass (loose) match. -/
def looseEpMatch (S E : Nat) (name : List Char) : Bool :=
  epLoose1 S E name || epLoose2 S E name

/-- Season-pack pattern: `season\s*${S}|s${pad2 S}`. -/
def seasonPackPat (S : Nat) (name : List Char) : Bool :=
  anyTail (litThen "season".data (skipWs (litThen (natChars S)
    (fun _ => true)))) name
  || containsSub ('s' :: pad2 S) name

/-- `findEpisodeFile(files, targetSeason, targetEpisode)`: three ordered
passes, first match wins; the season-pack pass returns the largest matching
file (`reduce` keeps the earlier file on size ties). -/
def findEpisodeFile (files : List PMFile) (S E : Nat) : Option PMFile :=
  let videoFiles := files.filter (fun f => f.isVideo)
  match videoFiles.find? (fun f => exactEpMatch S E (fileName f)) with
  | some f => some f
  | none =>
    match videoFiles.find? (fun f =>
        !sampleOrTrailer (fileName f) && looseEpMatch S E (fileName f)) with
    | some f => some f
    | none =>
      let seasonPackFiles := videoFiles.filter (fun f =>
        seasonPackPat S (fileName f) && !sampleOrTrailer (fileName f))
      match seasonPackFiles with
      | [] => none
      | g :: t => some (t.foldl (fun best f => if f.size > best.size then f else best) g)

/-! Batched cache check (`checkCacheStatuses`).  `makeRequest` (an HTTP call
with internal retries) is abstracted as `api : List String → Option (List
Bool)` giving, per chunk, the `data.response` array or `none` when the call
ultimately throws; the surrounding `try`/`catch` returns `{}` on any thrown
chunk, discarding the accumulated results. -/

/-- A per-hash result record (`cached: data.response[index]`, the rest
constant). -/
structure PMCacheResult where
  cached : Option Bool
  files : List String
  fileCount : Nat
  service : String
deriving DecidableEq

/-- The record stored for one hash. -/
def mkPMResult (c : Option Bool) : PMCacheResult :=
  { cached := c, files := [], fileCount := 0, service := "Premiumize" }

/-- `for (let i = 0; i < hashes.length; i += batchSize) batches.push(...)`,
fuel-structured for kernel reduction. -/
def chunksAux (n : Nat) : Nat → List String → List (List String)
  | _, [] => []
  | 0, _ :: _ => []
  | fuel + 1, a :: l => ((a :: l).take n) :: chunksAux n fuel ((a :: l).drop n)

/-- The batch list: successive slices of `n` hashes. -/
def chunksOf (n : Nat) (l : List String) : List (List String) :=
  chunksAux n l.length l

/-- `batch.forEach((hash, index) => { results[hash] = ... })`. -/
def insertBatch (resp : List Bool) : Nat → List String →
    List (String × PMCacheResult) → List (String × PMCacheResult)
  | _, [], m => m
  | i, h :: t, m => insertBatch resp (i + 1) t (upsert m h (mkPMResult resp[i]?))

/-- The sequential chunk loop with its `try`/`catch`: a failing chunk makes
the whole call return `{}`; later chunks are not issued.  The first component
counts issued cache-check calls. -/
def runBatches (api : List String → Option (List Bool)) :
    List (List String) → Nat → List (String × PMCacheResult) →
    Nat × List (String × PMCacheResult)
  | [], calls, acc => (calls, acc)
  | b :: bs, calls, acc =>
    match api b with
    | none => (calls + 1, [])
    | some resp => runBatches api bs (calls + 1) (insertBatch resp 0 b acc)

/-- `Premiumize.checkCacheStatuses(hashes)`: chunk into batches of 99, issue
them sequentially, collect per-hash records. -/
def checkCacheStatuses (api : List String → Option (List Bool))
    (hashes : List String) : Nat × List (String × PMCacheResult) :=
  runBatches api (chunksOf 99 hashes) 0 []

end Premiumize

/-! ### Helper lemmas -/

/-- Two sorted permutations of each other are equal, provided the order is
antisymmetric on the elements involved. -/
theorem sorted_perm_eq {α : Type} {r : α → α → Prop} :
    ∀ {l₁ l₂ : List α}, List.Sorted r l₁ → List.Sorted r l₂ → List.Perm l₁ l₂ →
      (∀ a ∈ l₁, ∀ b ∈ l₁, r a b → r b a → a = b) → l₁ = l₂
  | [], l₂, _, _, hp, _ => (hp.symm.eq_nil).symm
  | a :: t₁, [], _, _, hp, _ => absurd hp.eq_nil (by simp)
  | a :: t₁, b :: t₂, hs₁, hs₂, hp, hanti => by
    have hab : a = b := by
      have hbmem : b ∈ a :: t₁ := hp.mem_iff.2 (List.mem_cons_self b t₂)
      have hamem : a ∈ b :: t₂ := hp.mem_iff.1 (List.mem_cons_self a t₁)
      rcases List.mem_cons.1 hamem with h | h
      · exact h
      · rcases List.mem_cons.1 hbmem with h2 | h2
        · exact h2.symm
        · exact hanti a (List.mem_cons_self a t₁) b (List.mem_cons_of_mem a h2)
            (List.rel_of_sorted_cons hs₁ b h2) (List.rel_of_sorted_cons hs₂ a h)
    subst hab
    have htail : t₁ = t₂ :=
      sorted_perm_eq hs₁.of_cons hs₂.of_cons hp.cons_inv
        (fun x hx y hy => hanti x (List.mem_cons_of_mem a hx) y (List.mem_cons_of_mem a hy))
    rw [htail]

/-! ### Claim C1: final response ordering -/

/-- C1, counterexample.  The final response ordering is not sorted by the
ideal-size-band distance: with two 1080p streams of 20000 MB (band distance
4000) and 3000 MB (band distance 0), the endpoint emits the 20000 MB stream
first because STEP 6 sorts only by quality then size descending. -/
theorem sortedStreams_not_band_sorted :
    ¬ List.Sorted bandLe
      (sortedStreams
        [⟨"A", "", "", "", 1080, 20000⟩, ⟨"B", "", "", "", 1080, 3000⟩]) := by
  decide

/-- C1 (amended): the final response ordering sorts by quality tier descending
with ties broken by parsed size descending (the ideal-band distance of
`sortStreams` is not applied), and the result is a truncation to at most 50
streams drawn from the input. -/
theorem sortedStreams_spec (l : List FmtStream) :
    List.Sorted fsLe (sortedStreams l) ∧ (sortedStreams l).length ≤ 50 ∧
      (sortedStreams l).Subperm l := by
  refine ⟨?_, ?_, ?_⟩
  · exact List.Pairwise.sublist (List.take_sublist _ _)
      (List.sorted_insertionSort fsLe l)
  · exact List.length_take_le _ _
  · exact ((List.take_sublist _ _).subperm).trans
      (List.perm_insertionSort fsLe l).subperm

/-! ### Claim C10: permutation invariance of the final ranking -/

/-- C10, counterexample.  Two streams with equal parsed quality and size but
different display names: the final ranking emits them in input order, so the
two permuted inputs produce different output sequences. -/
theorem sortedStreams_not_perm_invariant :
    List.Perm [(⟨"A", "", "", "", 1080, 5000⟩ : FmtStream), ⟨"B", "", "", "", 1080, 5000⟩]
        [⟨"B", "", "", "", 1080, 5000⟩, ⟨"A", "", "", "", 1080, 5000⟩] ∧
      sortedStreams [⟨"A", "", "", "", 1080, 5000⟩, ⟨"B", "", "", "", 1080, 5000⟩] ≠
        sortedStreams [⟨"B", "", "", "", 1080, 5000⟩, ⟨"A", "", "", "", 1080, 5000⟩] :=
  ⟨List.Perm.swap _ _ _, by decide⟩

/-- C10 (amended): the final ranking is permutation invariant on inputs whose
(parsed quality, parsed size) key determines the stream — that is, whenever no
two distinct input streams tie on both fields. -/
theorem sortedStreams_perm_invariant (l₁ l₂ : List FmtStream)
    (hp : List.Perm l₁ l₂)
    (hinj : ∀ a ∈ l₁, ∀ b ∈ l₁, a.quality = b.quality → a.size = b.size → a = b) :
    sortedStreams l₁ = sortedStreams l₂ := by
  have heq : List.insertionSort fsLe l₁ = List.insertionSort fsLe l₂ := by
    apply sorted_perm_eq (List.sorted_insertionSort fsLe l₁)
      (List.sorted_insertionSort fsLe l₂)
      (((List.perm_insertionSort fsLe l₁).trans hp).trans
        (List.perm_insertionSort fsLe l₂).symm)
    intro a ha b hb hab hba
    have ha' : a ∈ l₁ := (List.mem_insertionSort fsLe).1 ha
    have hb' : b ∈ l₁ := (List.mem_insertionSort fsLe).1 hb
    have hq : a.quality = b.quality := by
      rcases hab with h | ⟨h, _⟩ <;> rcases hba with h2 | ⟨h2, _⟩ <;> omega
    have hs : a.size = b.size := by
      rcases hab with h | ⟨_, h⟩ <;> rcases hba with h2 | ⟨h2, h3⟩ <;> omega
    exact hinj a ha' b hb' hq hs
  unfold sortedStreams
  rw [heq]

/-- C10 (amended), witness at a concrete pair of permuted lists with distinct
(quality, size) keys. -/
theorem sortedStreams_perm_invariant_witness :
    sortedStreams [(⟨"A", "", "", "", 1080, 5000⟩ : FmtStream), ⟨"B", "", "", "", 720, 3000⟩] =
      sortedStreams [⟨"B", "", "", "", 720, 3000⟩, ⟨"A", "", "", "", 1080, 5000⟩] :=
  sortedStreams_perm_invariant _ _ (List.Perm.swap _ _ _) (by decide)

/-! ### Claim C2: `getStreams` deduplication -/

theorem mkCandidate_hash (s : RawStream) (h : String) : (mkCandidate s h).hash = h := rfl

/-- The hashes of the surviving candidates are the first-seen deduplication of
the recoverable hashes. -/
theorem combineStreams_map_hash :
    ∀ (l : List RawStream) (seen : List String),
      (combineStreams seen l).map (fun c => c.hash) =
        dedupFirst seen (l.filterMap hashOf)
  | [], _ => rfl
  | s :: t, seen => by
    cases hh : hashOf s with
    | none =>
      simp only [combineStreams, hh, List.filterMap_cons]
      exact combineStreams_map_hash t seen
    | some h =>
      by_cases hs : h ∈ seen
      · simp only [combineStreams, hh, if_pos hs, List.filterMap_cons, dedupFirst]
        exact combineStreams_map_hash t seen
      · simp only [combineStreams, hh, if_neg hs, List.filterMap_cons, dedupFirst,
          List.map_cons, mkCandidate_hash]
        exact congrArg (h :: ·) (combineStreams_map_hash t (h :: seen))

/-- Length bookkeeping for the first-seen deduplication. -/
theorem dedupFirst_length :
    ∀ (hs : List String) (seen : List String),
      (dedupFirst seen hs).length + countDupes seen hs = hs.length
  | [], _ => rfl
  | h :: t, seen => by
    by_cases hmem : h ∈ seen
    · simp only [dedupFirst, countDupes, if_pos hmem, List.length_cons]
      have := dedupFirst_length t seen
      omega
    · simp only [dedupFirst, countDupes, if_neg hmem, List.length_cons]
      have := dedupFirst_length t (h :: seen)
      omega

/-- A survivor's hash was not yet in `seenMagnets`. -/
theorem combineStreams_hash_not_seen :
    ∀ (l : List RawStream) (seen : List String) (c : Candidate),
      c ∈ combineStreams seen l → c.hash ∉ seen
  | [], seen, c, h => by simp [combineStreams] at h
  | s :: t, seen, c, hmem => by
    cases hh : hashOf s with
    | none =>
      simp only [combineStreams, hh] at hmem
      exact combineStreams_hash_not_seen t seen c hmem
    | some h =>
      simp only [combineStreams, hh] at hmem
      by_cases hs : h ∈ seen
      · rw [if_pos hs] at hmem
        exact combineStreams_hash_not_seen t seen c hmem
      · rw [if_neg hs] at hmem
        rcases List.mem_cons.1 hmem with rfl | hmem2
        · rw [mkCandidate_hash]; exact hs
        · have h2 := combineStreams_hash_not_seen t (h :: seen) c hmem2
          exact fun hin => h2 (List.mem_cons_of_mem _ hin)

/-- Every survivor is built from the first processed candidate bearing its
hash. -/
theorem combineStreams_first :
    ∀ (l : List RawStream) (seen : List String) (c : Candidate),
      c ∈ combineStreams seen l →
        ∃ s, l.find? (fun x => decide (hashOf x = some c.hash)) = some s ∧
          hashOf s = some c.hash ∧ c = mkCandidate s c.hash
  | [], _, c, h => absurd h (by simp [combineStreams])
  | s :: t, seen, c, hmem => by
    cases hh : hashOf s with
    | none =>
      simp only [combineStreams, hh] at hmem
      obtain ⟨s2, h1, h2, h3⟩ := combineStreams_first t seen c hmem
      refine ⟨s2, ?_, h2, h3⟩
      rw [List.find?_cons_of_neg _ (by simp [hh]), h1]
    | some h =>
      simp only [combineStreams, hh] at hmem
      by_cases hs : h ∈ seen
      · rw [if_pos hs] at hmem
        have hne : c.hash ≠ h :=
          fun he => (combineStreams_hash_not_seen t seen c hmem) (he ▸ hs)
        obtain ⟨s2, h1, h2, h3⟩ := combineStreams_first t seen c hmem
        refine ⟨s2, ?_, h2, h3⟩
        rw [List.find?_cons_of_neg _ (by simp [hh]; exact fun he => hne he.symm), h1]
      · rw [if_neg hs] at hmem
        rcases List.mem_cons.1 hmem with rfl | hmem2
        · refine ⟨s, ?_, by rw [mkCandidate_hash]; exact hh, by rw [mkCandidate_hash]⟩
          rw [List.find?_cons_of_pos _ (by simp [hh, mkCandidate_hash])]
        · have hnotin := combineStreams_hash_not_seen t (h :: seen) c hmem2
          have hne : c.hash ≠ h := fun he => hnotin (he ▸ List.mem_cons_self h seen)
          obtain ⟨s2, h1, h2, h3⟩ := combineStreams_first t (h :: seen) c hmem2
          refine ⟨s2, ?_, h2, h3⟩
          rw [List.find?_cons_of_neg _ (by simp [hh]; exact fun he => hne he.symm), h1]

/-- C2, counterexample.  Two backend candidates share the info hash `ab`
(`btih:ab` and `btih:AB`): N = 2 candidates carry a recoverable hash, M = 1 of
them shares a hash with an earlier candidate, and the aggregation output has
1 = N − M candidates — not N − M + 1 = 2 as claimed. -/
theorem getStreamsCombine_count_counterexample :
    (((([some [(⟨some "T1", none, some "magnet:?xt=urn:btih:ab", none, none, some "S1"⟩ : RawStream),
            ⟨some "T2", none, some "magnet:?xt=urn:btih:AB", none, none, some "S2"⟩]] :
          List (Option (List RawStream))).filterMap id).flatten).filterMap hashOf).length = 2 ∧
    countDupes []
        (((([some [(⟨some "T1", none, some "magnet:?xt=urn:btih:ab", none, none, some "S1"⟩ : RawStream),
            ⟨some "T2", none, some "magnet:?xt=urn:btih:AB", none, none, some "S2"⟩]] :
          List (Option (List RawStream))).filterMap id).flatten).filterMap hashOf) = 1 ∧
    (getStreamsCombine
        [some [(⟨some "T1", none, some "magnet:?xt=urn:btih:ab", none, none, some "S1"⟩ : RawStream),
            ⟨some "T2", none, some "magnet:?xt=urn:btih:AB", none, none, some "S2"⟩]]).length ≠
      2 - 1 + 1 := by
  decide

/-- C2 (amended): with N the number of candidates carrying a recoverable
`btih` hash and M the number of those sharing a hash with an earlier
candidate, the aggregation output of `getStreams` has exactly N − M
candidates, their hashes are the first-seen deduplication of the recovered
hashes, and each survivor is the record built from the first candidate (in
processing order) bearing its hash; candidates without a recoverable hash are
dropped. -/
theorem getStreamsCombine_dedup (input : List (Option (List RawStream))) :
    ((getStreamsCombine input).map (fun c => c.hash) =
        dedupFirst [] (((input.filterMap id).flatten).filterMap hashOf)) ∧
      (getStreamsCombine input).length =
        (((input.filterMap id).flatten).filterMap hashOf).length -
          countDupes [] (((input.filterMap id).flatten).filterMap hashOf) ∧
      ∀ c ∈ getStreamsCombine input,
        ∃ s, ((input.filterMap id).flatten).find?
              (fun x => decide (hashOf x = some c.hash)) = some s ∧
          hashOf s = some c.hash ∧ c = mkCandidate s c.hash := by
  refine ⟨combineStreams_map_hash _ _, ?_, fun c hc => combineStreams_first _ _ c hc⟩
  have h1 := combineStreams_map_hash ((input.filterMap id).flatten) []
  have h2 := dedupFirst_length (((input.filterMap id).flatten).filterMap hashOf) []
  have h3 : (getStreamsCombine input).length =
      (dedupFirst [] (((input.filterMap id).flatten).filterMap hashOf)).length := by
    rw [← h1, List.length_map]
    rfl
  omega

/-- C2 (amended), witness: the dedup count at a concrete two-candidate
input. -/
theorem getStreamsCombine_dedup_witness :
    (getStreamsCombine
        [some [(⟨some "T1", none, some "magnet:?xt=urn:btih:ab", none, none, some "S1"⟩ : RawStream),
            ⟨some "T2", none, some "magnet:?xt=urn:btih:AB", none, none, some "S2"⟩]]).length =
      (((([some [(⟨some "T1", none, some "magnet:?xt=urn:btih:ab", none, none, some "S1"⟩ : RawStream),
            ⟨some "T2", none, some "magnet:?xt=urn:btih:AB", none, none, some "S2"⟩]] :
          List (Option (List RawStream))).filterMap id).flatten).filterMap hashOf).length -
        countDupes []
          (((([some [(⟨some "T1", none, some "magnet:?xt=urn:btih:ab", none, none, some "S1"⟩ : RawStream),
              ⟨some "T2", none, some "magnet:?xt=urn:btih:AB", none, none, some "S2"⟩]] :
            List (Option (List RawStream))).filterMap id).flatten).filterMap hashOf) :=
  (getStreamsCombine_dedup _).2.1

/-! ### Claim C5: cache-status merge retention -/

theorem mkCacheEntry_hash (s : CandStream) (r : SvcCacheResult) :
    (mkCacheEntry s r).hash = lowHash s := rfl

theorem mkCacheEntry_cached (s : CandStream) (r : SvcCacheResult) :
    (mkCacheEntry s r).cached = !decide (r.cached = some false) := rfl

/-- Assigning a fresh key appends. -/
theorem upsert_fresh {β : Type} (m : List (String × β)) (k : String) (v : β)
    (h : ∀ p ∈ m, p.1 ≠ k) : upsert m k v = m ++ [(k, v)] := by
  have hany : m.any (fun p => p.1 = k) = false := by
    rw [List.any_eq_false]
    intro p hp
    simpa using h p hp
  simp [upsert, hany]

/-- A nonempty string stays nonempty under lowercasing. -/
theorem lowerStr_ne_empty (s : String) (h : s ≠ "") : lowerStr s ≠ "" := by
  intro he
  apply h
  have hd : (lowerStr s).data = [] := by rw [he]
  have : lowerChars s.data = [] := hd
  have : s.data = [] := by
    cases hs : s.data with
    | nil => rfl
    | cons c cs => rw [hs] at this; simp [lowerChars] at this
  cases s
  simp_all

/-- With pairwise-distinct fresh keys, the `cacheMap` loop appends one entry
per stream whose provider result exists. -/
theorem buildCacheMapGo_fresh (svc : String → Option SvcCacheResult) :
    ∀ (l : List CandStream) (m : List (String × CacheEntry)),
      List.Pairwise (fun a b => lowHash a ≠ lowHash b) l →
      (∀ s ∈ l, ∀ p ∈ m, p.1 ≠ lowHash s) →
      buildCacheMapGo svc m l =
        m ++ l.filterMap (fun s =>
          (svc (lowHash s)).map (fun r => (lowHash s, mkCacheEntry s r)))
  | [], m, _, _ => by simp [buildCacheMapGo]
  | s :: t, m, hpw, hm => by
    cases hsvc : svc (lowHash s) with
    | none =>
      simp only [buildCacheMapGo, hsvc, List.filterMap_cons]
      exact buildCacheMapGo_fresh svc t m hpw.of_cons
        (fun x hx p hp => hm x (List.mem_cons_of_mem s hx) p hp)
    | some r =>
      simp only [buildCacheMapGo, hsvc, List.filterMap_cons, Option.map_some]
      rw [upsert_fresh m (lowHash s) (mkCacheEntry s r)
          (fun p hp => hm s (List.mem_cons_self s t) p hp)]
      rw [buildCacheMapGo_fresh svc t (m ++ [(lowHash s, mkCacheEntry s r)])
          hpw.of_cons ?_]
      · simp
      · intro x hx p hp
        rcases List.mem_append.1 hp with hp2 | hp2
        · exact hm x (List.mem_cons_of_mem s hx) p hp2
        · have : p = (lowHash s, mkCacheEntry s r) := by simpa using hp2
          rw [this]
          exact (List.rel_of_pairwise_cons hpw hx)

/-- Values-then-filter collapses to the per-stream retention rule. -/
theorem values_filter_spec (svc : String → Option SvcCacheResult) :
    ∀ (l : List CandStream), (∀ s ∈ l, truthyS s.hash = true) →
      ((l.filterMap (fun s =>
          (svc (lowHash s)).map (fun r => (lowHash s, mkCacheEntry s r)))).map
            Prod.snd).filter (fun e => e.hash ≠ "" && e.cached) =
        l.filterMap (fun s =>
          match svc (lowHash s) with
          | none => none
          | some r =>
            if decide (r.cached ≠ some false) then some (mkCacheEntry s r)
            else none)
  | [], _ => rfl
  | s :: t, hv => by
    have hne : lowHash s ≠ "" := by
      have hts := hv s (List.mem_cons_self s t)
      cases hh : s.hash with
      | none => rw [hh] at hts; simp [truthyS] at hts
      | some str =>
        rw [hh] at hts
        have : str ≠ "" := by simpa [truthyS] using hts
        unfold lowHash
        rw [hh]
        exact lowerStr_ne_empty str this
    have IH := values_filter_spec svc t
      (fun x hx => hv x (List.mem_cons_of_mem s hx))
    cases hsvc : svc (lowHash s) with
    | none => simpa [List.filterMap_cons, hsvc] using IH
    | some r =>
      by_cases hc : r.cached = some false
      · simpa [List.filterMap_cons, hsvc, List.filter_cons, mkCacheEntry_hash,
          mkCacheEntry_cached, hc] using IH
      · simpa [List.filterMap_cons, hsvc, List.filter_cons, mkCacheEntry_hash,
          mkCacheEntry_cached, hc, hne] using IH

/-- C5, counterexample.  A provider result whose `cached` field is absent
(undefined) is retained by the merge: `cached: result.cached !== false` turns
the absent field into `true`, so the entry passes the `stream.cached` filter —
the claim says it must not be retained. -/
theorem serviceStreams_undefined_cached_retained :
    (serviceStreamsOf (fun h => if h = "a" then some ⟨none⟩ else none)
        [⟨some "A", some "magnet:x", some "file.mkv", none, some "1080p",
          some "2 GB", some "src"⟩]).length = 1 ∧
      (fun h => if h = "a" then some (⟨none⟩ : SvcCacheResult) else none) "a" =
        some ⟨none⟩ := by
  decide

/-- C5 (amended): an entry is retained iff its provider result exists and its
`cached` field is not exactly `false` (absent/undefined fields count as
cached); each retained entry carries the originating candidate's magnet link,
filename, display title, quality, size and source with the source's fallback
defaults, as packaged by `mkCacheEntry`.  Stated for inputs whose valid
candidates have pairwise-distinct lowercased hashes (otherwise later
candidates overwrite earlier map entries). -/
theorem serviceStreams_retention (svc : String → Option SvcCacheResult)
    (streams : List CandStream)
    (hnd : (streams.filter (fun s => truthyS s.hash)).Pairwise
      (fun a b => lowHash a ≠ lowHash b)) :
    serviceStreamsOf svc streams = retainedSpec svc streams := by
  unfold serviceStreamsOf checkCacheStatusesMerge retainedSpec
  rw [buildCacheMapGo_fresh svc (streams.filter (fun s => truthyS s.hash)) []
      hnd (fun _ _ p hp => absurd hp (List.not_mem_nil p))]
  rw [List.nil_append]
  exact values_filter_spec svc _ (fun s hs => (List.mem_filter.1 hs).2)

/-- C5 (amended), witness at a concrete stream and provider map. -/
theorem serviceStreams_retention_witness :
    serviceStreamsOf (fun h => if h = "a" then some ⟨some true⟩ else none)
        [⟨some "A", some "magnet:x", some "file.mkv", none, some "1080p",
          some "2 GB", some "src"⟩] =
      retainedSpec (fun h => if h = "a" then some ⟨some true⟩ else none)
        [⟨some "A", some "magnet:x", some "file.mkv", none, some "1080p",
          some "2 GB", some "src"⟩] :=
  serviceStreams_retention _ _ (by decide)

/-! ### Claim C9: resolve handler exhaustion -/

/-- If every service attempt fails, the service walk yields no URL. -/
theorem firstSuccess_eq_none :
    ∀ (services : List SvcModel) (magnet : String),
      (∀ s ∈ services, attemptService s magnet = none) →
      firstSuccess services magnet = none
  | [], _, _ => rfl
  | s :: t, magnet, h => by
    have hs := h s (List.mem_cons_self s t)
    simp only [firstSuccess, hs]
    exact firstSuccess_eq_none t magnet
      (fun x hx => h x (List.mem_cons_of_mem s hx))

/-- If every fallback fails on every service, the fallback walk yields no
URL. -/
theorem tryFallbacks_eq_none (services : List SvcModel) :
    ∀ (fbs : List FallbackStream),
      (∀ fb ∈ fbs, firstSuccess services fb.magnetLink = none) →
      tryFallbacks services fbs = none
  | [], _ => rfl
  | fb :: t, h => by
    have hf := h fb (List.mem_cons_self fb t)
    simp only [tryFallbacks, hf]
    exact tryFallbacks_eq_none services t
      (fun x hx => h x (List.mem_cons_of_mem fb hx))

/-- C9: when every configured provider fails on the primary magnet and on
every stored fallback alternate (or no fallback list exists), the magnet
handler answers with the 404 body whose error field is `Stream not available`
(`HandlerResponse.notAvailable`); being a total function, the embedded handler
also cannot raise: every failure path ends in this single response shape. -/
theorem magnetHandler_exhausted (services : List SvcModel) (magnetLink : String)
    (cacheKey : Option String)
    (streamCache : List (String × List FallbackStream))
    (hp : ∀ s ∈ services, attemptService s magnetLink = none)
    (hf : ∀ k, cacheKey = some k → ∀ l, alGet streamCache k = some l →
      ∀ fb ∈ l, ∀ s ∈ services, attemptService s fb.magnetLink = none) :
    ∃ d, magnetHandler services magnetLink cacheKey streamCache =
      HandlerResponse.notAvailable d := by
  unfold magnetHandler
  by_cases hse : services.isEmpty
  · exact ⟨_, by rw [if_pos hse]⟩
  rw [if_neg hse]
  have h1 : firstSuccess services magnetLink = none :=
    firstSuccess_eq_none services magnetLink hp
  cases hh : extractInfoHash magnetLink with
  | none => exact ⟨_, rfl⟩
  | some h =>
    cases hck : cacheKey.bind (fun k => alGet streamCache k) with
    | none =>
      simp only [h1, hck]
      exact ⟨_, rfl⟩
    | some cachedStreams =>
      have hl : ∀ fb ∈ cachedStreams, ∀ s ∈ services,
          attemptService s fb.magnetLink = none := by
        cases hk : cacheKey with
        | none => rw [hk] at hck; simp at hck
        | some k =>
          rw [hk] at hck
          simp only [Option.some_bind] at hck
          exact hf k hk cachedStreams hck
      have h2 : tryFallbacks services
          (List.insertionSort fbQualityLe
            (cachedStreams.filter (fun st => st.hash ≠ lowerStr h))) = none := by
        apply tryFallbacks_eq_none
        intro fb hfb
        have hfb2 : fb ∈ cachedStreams := by
          have := (List.mem_insertionSort fbQualityLe).1 hfb
          exact (List.mem_filter.1 this).1
        exact firstSuccess_eq_none services fb.magnetLink
          (fun s hs => hl fb hfb2 s hs)
      simp only [h1, hck, h2]
      exact ⟨_, rfl⟩

/-- C9, witness: one failing provider, a valid magnet, no fallback list. -/
theorem magnetHandler_exhausted_witness :
    ∃ d, magnetHandler [⟨"RealDebrid", fun _ => Except.error "failed"⟩]
        "magnet:?xt=urn:btih:aaaaaaaaaaaaaaaaaaaaaaaaaaaaaaaaaaaaaaaa"
        none [] = HandlerResponse.notAvailable d :=
  magnetHandler_exhausted _ _ _ _ (by decide)
    (fun _ hk => Option.noConfusion hk)

/-! ### Claim C6: movie file selection -/

namespace Premiumize

/-- Folding from a seeded best element is the seeded combination of the
unseeded fold. -/
theorem foldl_pickBetter (k : PMFile → Int) :
    ∀ (t : List PMFile) (b : PMFile),
      t.foldl (pickBetter k) (some b) =
        match t.foldl (pickBetter k) none with
        | none => some b
        | some m => if k m > k b then some m else some b
  | [], _ => rfl
  | x :: xs, b => by
    simp only [List.foldl_cons, pickBetter]
    rw [← apply_ite some]
    rw [foldl_pickBetter k xs (if k x > k b then x else b),
      foldl_pickBetter k xs x]
    cases hM : xs.foldl (pickBetter k) none with
    | none =>
      by_cases h1 : k x > k b <;> simp [h1]
    | some m =>
      by_cases h1 : k x > k b <;> by_cases h2 : k m > k x <;>
        by_cases h3 : k m > k b <;> simp [h1, h2, h3] <;> omega

/-- The front of the stable score-descending sort is the first maximal
element. -/
theorem head_insertionSort_movie :
    ∀ l : List PMFile,
      (List.insertionSort movieLe l).head? = firstMaxBy scoreMovieFile l
  | [] => rfl
  | x :: t => by
    simp only [List.insertionSort]
    cases hs : List.insertionSort movieLe t with
    | nil =>
      have ht : t = [] := by
        have hlen := List.length_insertionSort movieLe t
        rw [hs] at hlen
        simpa using hlen.symm
      subst ht
      rfl
    | cons h hs2 =>
      have hh : firstMaxBy scoreMovieFile t = some h := by
        rw [← head_insertionSort_movie t, hs]
        rfl
      have hfold : (x :: t).foldl (pickBetter scoreMovieFile) none =
          if scoreMovieFile h > scoreMovieFile x then some h else some x := by
        rw [List.foldl_cons]
        show t.foldl (pickBetter scoreMovieFile) (some x) = _
        rw [foldl_pickBetter scoreMovieFile t x]
        have : t.foldl (pickBetter scoreMovieFile) none = some h := hh
        rw [this]
      show (List.orderedInsert movieLe x (h :: hs2)).head? = firstMaxBy scoreMovieFile (x :: t)
      unfold firstMaxBy
      rw [hfold]
      simp only [List.orderedInsert]
      by_cases hcmp : movieLe x h
      · rw [if_pos hcmp]
        unfold movieLe at hcmp
        rw [if_neg (by omega)]
        rfl
      · rw [if_neg hcmp]
        unfold movieLe at hcmp
        rw [if_pos (by omega)]
        rfl

/-- C6: `findBestMovieFile` returns exactly the first video file attaining the
maximal `scoreMovieFile` score (base 100; cumulative size bonuses at 500, 1000,
2000 and 5000 MB; −800 for extras keywords; +50 for `mkv`, +40 for `mp4`;
+100 for path depth at most 2); on ties the earliest input file wins. -/
theorem findBestMovieFile_spec (files : List PMFile) :
    findBestMovieFile files =
      firstMaxBy scoreMovieFile (files.filter (fun f => f.isVideo)) := by
  unfold findBestMovieFile
  by_cases he : (files.filter (fun f => f.isVideo)).isEmpty
  · rw [if_pos he, List.isEmpty_iff.1 he]
    rfl
  · rw [if_neg he]
    exact head_insertionSort_movie _

end Premiumize

/-! ### Claim C7: episode selection pass ordering -/

/-- A successful `find?` splits the list into unmatched prefix, hit, rest. -/
theorem find?_eq_some_split {α : Type} (p : α → Bool) :
    ∀ (l : List α) (a : α), l.find? p = some a →
      p a = true ∧ ∃ l₁ l₂, l = l₁ ++ a :: l₂ ∧ ∀ x ∈ l₁, p x = false
  | [], a, h => by simp at h
  | x :: t, a, h => by
    by_cases hp : p x
    · rw [List.find?_cons_of_pos t hp] at h
      obtain rfl : x = a := by injection h
      exact ⟨hp, [], t, rfl, by simp⟩
    · rw [List.find?_cons_of_neg t hp] at h
      obtain ⟨ha, l₁, l₂, heq, hl₁⟩ := find?_eq_some_split p t a h
      refine ⟨ha, x :: l₁, l₂, by rw [heq]; rfl, ?_⟩
      intro y hy
      rcases List.mem_cons.1 hy with rfl | hy2
      · simpa using hp
      · exact hl₁ y hy2

namespace Premiumize

/-- C7: episode selection proceeds in ordered passes with the first match
winning.  (1) When some video file matches an exact season/episode pattern,
the result is the first such file, with no exact-matching file skipped in
favour of a loose match; (2) when no file matches exactly but some non-sample
file matches loosely, the result is the first such file; (3) on the file list
`["Show.S02E05.mkv", "Show.S02E06.mkv"]` with target S02E05, selection returns
exactly the first file. -/
theorem findEpisodeFile_passes :
    (∀ (files : List PMFile) (S E : Nat),
      (files.filter (fun f => f.isVideo)).any
          (fun f => exactEpMatch S E (fileName f)) = true →
      ∃ g l₁ l₂, findEpisodeFile files S E = some g ∧
        exactEpMatch S E (fileName g) = true ∧
        files.filter (fun f => f.isVideo) = l₁ ++ g :: l₂ ∧
        ∀ x ∈ l₁, exactEpMatch S E (fileName x) = false) ∧
    (∀ (files : List PMFile) (S E : Nat),
      (∀ f ∈ files.filter (fun f => f.isVideo),
        exactEpMatch S E (fileName f) = false) →
      (files.filter (fun f => f.isVideo)).any
          (fun f => !sampleOrTrailer (fileName f) &&
            looseEpMatch S E (fileName f)) = true →
      ∃ g l₁ l₂, findEpisodeFile files S E = some g ∧
        (!sampleOrTrailer (fileName g) && looseEpMatch S E (fileName g)) = true ∧
        files.filter (fun f => f.isVideo) = l₁ ++ g :: l₂ ∧
        ∀ x ∈ l₁,
          (!sampleOrTrailer (fileName x) && looseEpMatch S E (fileName x)) = false) ∧
    findEpisodeFile
      [⟨"Show.S02E05.mkv", 100, "", "", true, false, "mkv"⟩,
       ⟨"Show.S02E06.mkv", 100, "", "", true, false, "mkv"⟩] 2 5 =
      some ⟨"Show.S02E05.mkv", 100, "", "", true, false, "mkv"⟩ := by
  refine ⟨?_, ?_, by decide⟩
  · intro files S E hany
    have hsome : ∃ g, (files.filter (fun f => f.isVideo)).find?
        (fun f => exactEpMatch S E (fileName f)) = some g := by
      have := List.find?_isSome.2 (List.any_eq_true.1 hany)
      exact Option.isSome_iff_exists.1 this
    obtain ⟨g, hg⟩ := hsome
    obtain ⟨hpg, l₁, l₂, heq, hl₁⟩ := find?_eq_some_split _ _ g hg
    refine ⟨g, l₁, l₂, ?_, hpg, heq, hl₁⟩
    simp only [findEpisodeFile, hg]
  · intro files S E hnone hany
    have hfind1 : (files.filter (fun f => f.isVideo)).find?
        (fun f => exactEpMatch S E (fileName f)) = none :=
      List.find?_eq_none.2 (fun x hx => by simp [hnone x hx])
    have hsome : ∃ g, (files.filter (fun f => f.isVideo)).find?
        (fun f => !sampleOrTrailer (fileName f) &&
          looseEpMatch S E (fileName f)) = some g := by
      have := List.find?_isSome.2 (List.any_eq_true.1 hany)
      exact Option.isSome_iff_exists.1 this
    obtain ⟨g, hg⟩ := hsome
    obtain ⟨hpg, l₁, l₂, heq, hl₁⟩ := find?_eq_some_split _ _ g hg
    refine ⟨g, l₁, l₂, ?_, hpg, heq, hl₁⟩
    simp only [findEpisodeFile, hfind1, hg]

/-- C7, witness: pass 1 applied to the spec's concrete file list. -/
theorem findEpisodeFile_passes_witness :
    ∃ g l₁ l₂,
      findEpisodeFile
        [⟨"Show.S02E05.mkv", 100, "", "", true, false, "mkv"⟩,
         ⟨"Show.S02E06.mkv", 100, "", "", true, false, "mkv"⟩] 2 5 = some g ∧
      exactEpMatch 2 5 (fileName g) = true ∧
      ([⟨"Show.S02E05.mkv", 100, "", "", true, false, "mkv"⟩,
        ⟨"Show.S02E06.mkv", 100, "", "", true, false, "mkv"⟩] : List PMFile).filter
          (fun f => f.isVideo) = l₁ ++ g :: l₂ ∧
      ∀ x ∈ l₁, exactEpMatch 2 5 (fileName x) = false :=
  findEpisodeFile_passes.1 _ 2 5 (by decide)

end Premiumize

/-! ### Claim C8: season-pack fallback -/

/-- C8, counterexample.  With the spec's dotted file names, the season-pack
regex `season\s*3|s03` matches neither file — the dot between `season` and `3`
defeats `\s*`, and `s03` does not occur — and no exact or loose pattern
matches either, so selection returns `none` rather than the 8000 MB file. -/
theorem findEpisodeFile_dotted_returns_none :
    Premiumize.findEpisodeFile
        [⟨"Show.Season.3.Complete.mkv", 8000 * 1048576, "", "", true, false, "mkv"⟩,
         ⟨"Show.Season.3.sample.mkv", 10 * 1048576, "", "", true, false, "mkv"⟩] 3 9 =
      none ∧
    Premiumize.seasonPackPat 3
        (Premiumize.fileName
          ⟨"Show.Season.3.Complete.mkv", 8000 * 1048576, "", "", true, false, "mkv"⟩) =
      false := by
  decide

/-- C8 (amended): when the file names do match the season-pack pattern (for
example `Season 3` with a space, as `season\s*3` requires), and no exact or
loose pattern matches, the fallback returns the single largest matching
non-sample file: here the 8000 MB file is returned over the 10 MB sample even
though the sample comes first in the list. -/
theorem findEpisodeFile_pack_largest :
    Premiumize.findEpisodeFile
        [⟨"Show.Season 3.sample.mkv", 10 * 1048576, "", "", true, false, "mkv"⟩,
         ⟨"Show.Season 3.Complete.mkv", 8000 * 1048576, "", "", true, false, "mkv"⟩] 3 9 =
      some ⟨"Show.Season 3.Complete.mkv", 8000 * 1048576, "", "", true, false, "mkv"⟩ := by
  decide


/-! ### Claims C3 and C4: Premiumize batched cache check -/

/-- In-place update: the updated key reads back the new value. -/
theorem alGet_map_self {β : Type} (k : String) (v : β) :
    ∀ (m : List (String × β)), m.any (fun p => p.1 = k) = true →
      alGet (m.map (fun p => if p.1 = k then (k, v) else p)) k = some v
  | [], hany => by simp at hany
  | p :: t, hany => by
    rw [List.map_cons]
    by_cases hp : p.1 = k
    · rw [if_pos hp]
      simp [alGet]
    · rw [if_neg hp]
      have ht : t.any (fun p => p.1 = k) = true := by
        simpa [List.any_cons, hp] using hany
      show (if p.1 = k then some p.2 else _) = some v
      rw [if_neg hp]
      exact alGet_map_self k v t ht

/-- Appending a fresh binding: the new key reads back the new value. -/
theorem alGet_append_self {β : Type} (k : String) (v : β) :
    ∀ (m : List (String × β)), m.any (fun p => p.1 = k) = false →
      alGet (m ++ [(k, v)]) k = some v
  | [], _ => by simp [alGet]
  | p :: t, hany => by
    simp only [List.any_cons, Bool.or_eq_false_iff, decide_eq_false_iff_not] at hany
    rw [List.cons_append]
    show (if p.1 = k then some p.2 else _) = some v
    rw [if_neg hany.1]
    exact alGet_append_self k v t (by simp [hany.2])

/-- In-place update leaves other keys alone. -/
theorem alGet_map_other {β : Type} (k : String) (v : β) (h : String) (hne : k ≠ h) :
    ∀ m : List (String × β),
      alGet (m.map (fun p => if p.1 = k then (k, v) else p)) h = alGet m h
  | [] => rfl
  | p :: t => by
    rw [List.map_cons]
    by_cases hp : p.1 = k
    · have hph : ¬p.1 = h := by rw [hp]; exact hne
      rw [if_pos hp]
      show (if k = h then some v else _) = _
      rw [if_neg hne]
      show _ = if p.1 = h then some p.2 else alGet t h
      rw [if_neg hph]
      exact alGet_map_other k v h hne t
    · rw [if_neg hp]
      show (if p.1 = h then some p.2 else _) = if p.1 = h then some p.2 else alGet t h
      by_cases hph : p.1 = h
      · rw [if_pos hph, if_pos hph]
      · rw [if_neg hph, if_neg hph]
        exact alGet_map_other k v h hne t

/-- Appending a binding leaves other keys alone. -/
theorem alGet_append_other {β : Type} (k : String) (v : β) (h : String) (hne : k ≠ h) :
    ∀ m : List (String × β), alGet (m ++ [(k, v)]) h = alGet m h
  | [] => by simp [alGet, hne]
  | p :: t => by
    rw [List.cons_append]
    show (if p.1 = h then some p.2 else _) = if p.1 = h then some p.2 else alGet t h
    by_cases hph : p.1 = h
    · rw [if_pos hph, if_pos hph]
    · rw [if_neg hph, if_neg hph]
      exact alGet_append_other k v h hne t

/-- `m[k] = v` then reading `k` gives `v`. -/
theorem alGet_upsert_self {β : Type} (m : List (String × β)) (k : String) (v : β) :
    alGet (upsert m k v) k = some v := by
  unfold upsert
  by_cases hany : m.any (fun p => p.1 = k) = true
  · rw [if_pos hany]
    exact alGet_map_self k v m hany
  · rw [if_neg hany]
    exact alGet_append_self k v m (by simpa only [Bool.not_eq_true] using hany)

/-- `m[k] = v` then reading another key is unchanged. -/
theorem alGet_upsert_other {β : Type} (m : List (String × β)) (k : String) (v : β)
    (h : String) (hne : k ≠ h) : alGet (upsert m k v) h = alGet m h := by
  unfold upsert
  by_cases hany : m.any (fun p => p.1 = k) = true
  · rw [if_pos hany]
    exact alGet_map_other k v h hne m
  · rw [if_neg hany]
    exact alGet_append_other k v h hne m

namespace Premiumize

/-- `insertBatch` does not touch keys outside the batch. -/
theorem alGet_insertBatch_not_mem (resp : List Bool) :
    ∀ (b : List String) (i : Nat) (m : List (String × PMCacheResult)) (h : String),
      h ∉ b → alGet (insertBatch resp i b m) h = alGet m h
  | [], _, _, _, _ => rfl
  | x :: t, i, m, h, hmem => by
    have hx : x ≠ h := fun he => hmem (he ▸ List.mem_cons_self x t)
    have ht : h ∉ t := fun he => hmem (List.mem_cons_of_mem x he)
    show alGet (insertBatch resp (i + 1) t (upsert m x (mkPMResult resp[i]?))) h = _
    rw [alGet_insertBatch_not_mem resp t (i + 1) _ h ht]
    exact alGet_upsert_other m x _ h hx

/-- `insertBatch` stores position `j` of the response under hash `j` of the
batch. -/
theorem alGet_insertBatch_get (resp : List Bool) :
    ∀ (b : List String) (i : Nat) (m : List (String × PMCacheResult)),
      b.Nodup → ∀ (j : Nat) (hj : j < b.length),
        alGet (insertBatch resp i b m) (b.get ⟨j, hj⟩) =
          some (mkPMResult resp[i + j]?)
  | [], _, _, _, j, hj => absurd hj (by simp)
  | x :: t, i, m, hnd, 0, _ => by
    have hx : x ∉ t := fun hmem => (List.rel_of_pairwise_cons hnd hmem) rfl
    show alGet (insertBatch resp (i + 1) t (upsert m x (mkPMResult resp[i]?))) x = _
    rw [alGet_insertBatch_not_mem resp t (i + 1) _ x hx, alGet_upsert_self,
      Nat.add_zero]
  | x :: t, i, m, hnd, j + 1, hj => by
    have hjt : j < t.length := by
      have := hj
      simp only [List.length_cons] at this
      omega
    show alGet (insertBatch resp (i + 1) t (upsert m x (mkPMResult resp[i]?)))
        (t.get ⟨j, hjt⟩) = _
    rw [alGet_insertBatch_get resp t (i + 1) _ hnd.of_cons j hjt]
    have harith : i + 1 + j = i + (j + 1) := by omega
    rw [harith]

/-- Key presence after `insertBatch`. -/
theorem alGet_insertBatch_isSome (resp : List Bool) :
    ∀ (b : List String) (i : Nat) (m : List (String × PMCacheResult)) (h : String),
      ((alGet (insertBatch resp i b m) h).isSome = true ↔
        h ∈ b ∨ (alGet m h).isSome = true)
  | [], _, _, _ => by simp [insertBatch]
  | x :: t, i, m, h => by
    show ((alGet (insertBatch resp (i + 1) t (upsert m x (mkPMResult resp[i]?)))
        h).isSome = true ↔ _)
    rw [alGet_insertBatch_isSome resp t (i + 1) _ h]
    by_cases hx : x = h
    · subst hx
      rw [alGet_upsert_self]
      simp [List.mem_cons]
    · rw [alGet_upsert_other m x _ h hx]
      have hxh : ¬h = x := fun he => hx he.symm
      simp only [List.mem_cons]
      tauto

end Premiumize

namespace Premiumize

/-- With every chunk succeeding, one call is issued per chunk. -/
theorem runBatches_calls (api : List String → Option (List Bool)) :
    ∀ (bs : List (List String)) (calls : Nat) (acc : List (String × PMCacheResult)),
      (∀ b ∈ bs, (api b).isSome = true) →
      (runBatches api bs calls acc).1 = calls + bs.length
  | [], _, _, _ => by simp [runBatches]
  | b :: t, calls, acc, hok => by
    obtain ⟨resp, hresp⟩ := Option.isSome_iff_exists.1 (hok b (List.mem_cons_self b t))
    simp only [runBatches, hresp]
    rw [runBatches_calls api t (calls + 1) _
      (fun x hx => hok x (List.mem_cons_of_mem b hx))]
    simp only [List.length_cons]
    omega

/-- With every chunk succeeding, keys outside every chunk are untouched. -/
theorem runBatches_not_mem (api : List String → Option (List Bool)) :
    ∀ (bs : List (List String)) (calls : Nat) (acc : List (String × PMCacheResult))
      (h : String),
      (∀ b ∈ bs, (api b).isSome = true) → (∀ b ∈ bs, h ∉ b) →
      alGet (runBatches api bs calls acc).2 h = alGet acc h
  | [], _, _, _, _, _ => rfl
  | b :: t, calls, acc, h, hok, hmem => by
    obtain ⟨resp, hresp⟩ := Option.isSome_iff_exists.1 (hok b (List.mem_cons_self b t))
    simp only [runBatches, hresp]
    rw [runBatches_not_mem api t (calls + 1) _ h
      (fun x hx => hok x (List.mem_cons_of_mem b hx))
      (fun x hx => hmem x (List.mem_cons_of_mem b hx))]
    exact alGet_insertBatch_not_mem resp b 0 acc h (hmem b (List.mem_cons_self b t))

/-- With every chunk succeeding and the chunks pairwise disjoint, the `j`-th
hash of a chunk maps to position `j` of that chunk's response. -/
theorem runBatches_get (api : List String → Option (List Bool)) :
    ∀ (bs : List (List String)) (calls : Nat) (acc : List (String × PMCacheResult)),
      (∀ b ∈ bs, (api b).isSome = true) → List.Pairwise List.Disjoint bs →
      ∀ b ∈ bs, b.Nodup → ∀ (resp : List Bool), api b = some resp →
        ∀ (j : Nat) (hj : j < b.length),
          alGet (runBatches api bs calls acc).2 (b.get ⟨j, hj⟩) =
            some (mkPMResult resp[j]?)
  | [], _, _, _, _, b, hb, _, _, _, _, _ => absurd hb (List.not_mem_nil b)
  | b0 :: t, calls, acc, hok, hdisj, b, hb, hbnd, resp, hresp, j, hj => by
    obtain ⟨resp0, hresp0⟩ :=
      Option.isSome_iff_exists.1 (hok b0 (List.mem_cons_self b0 t))
    simp only [runBatches, hresp0]
    rcases List.mem_cons.1 hb with rfl | hbt
    · have hresp0b : resp0 = resp := by
        rw [hresp0] at hresp
        injection hresp
      subst hresp0b
      have hnotin : ∀ b2 ∈ t, (b.get ⟨j, hj⟩) ∉ b2 := by
        intro b2 hb2 hmem
        exact (List.rel_of_pairwise_cons hdisj hb2) (b.get_mem j hj) hmem
      rw [runBatches_not_mem api t (calls + 1) _ _
        (fun x hx => hok x (List.mem_cons_of_mem b hx)) hnotin]
      have hzero := alGet_insertBatch_get resp0 b 0 acc hbnd j hj
      rw [Nat.zero_add] at hzero
      exact hzero
    · exact runBatches_get api t (calls + 1) _
        (fun x hx => hok x (List.mem_cons_of_mem b0 hx)) hdisj.of_cons
        b hbt hbnd resp hresp j hj

/-- With every chunk succeeding, the key set of the result is the union of the
chunks plus the accumulated keys. -/
theorem runBatches_isSome (api : List String → Option (List Bool)) :
    ∀ (bs : List (List String)) (calls : Nat) (acc : List (String × PMCacheResult))
      (h : String),
      (∀ b ∈ bs, (api b).isSome = true) →
      ((alGet (runBatches api bs calls acc).2 h).isSome = true ↔
        (∃ b ∈ bs, h ∈ b) ∨ (alGet acc h).isSome = true)
  | [], _, _, _, _ => by simp [runBatches]
  | b :: t, calls, acc, h, hok => by
    obtain ⟨resp, hresp⟩ := Option.isSome_iff_exists.1 (hok b (List.mem_cons_self b t))
    simp only [runBatches, hresp]
    rw [runBatches_isSome api t (calls + 1) _ h
      (fun x hx => hok x (List.mem_cons_of_mem b hx))]
    rw [alGet_insertBatch_isSome resp b 0 acc h]
    constructor
    · rintro (⟨x, hx, hxm⟩ | h1 | h1)
      · exact Or.inl ⟨x, List.mem_cons_of_mem b hx, hxm⟩
      · exact Or.inl ⟨b, List.mem_cons_self b t, h1⟩
      · exact Or.inr h1
    · rintro (⟨b2, hb2, hmem⟩ | h1)
      · rcases List.mem_cons.1 hb2 with rfl | hb2t
        · exact Or.inr (Or.inl hmem)
        · exact Or.inl ⟨b2, hb2t, hmem⟩
      · exact Or.inr (Or.inr h1)

end Premiumize

namespace Premiumize

/-- Concatenating the chunks gives back the hash list. -/
theorem chunksAux_flatten (n : Nat) (hn : 0 < n) :
    ∀ (fuel : Nat) (l : List String), l.length ≤ fuel →
      (chunksAux n fuel l).flatten = l
  | _, [], _ => by
    cases ‹Nat› <;> rfl
  | 0, a :: l, hle => by simp at hle
  | fuel + 1, a :: l, hle => by
    show ((a :: l).take n :: chunksAux n fuel ((a :: l).drop n)).flatten = a :: l
    rw [List.flatten_cons]
    rw [chunksAux_flatten n hn fuel ((a :: l).drop n) ?_]
    · exact List.take_append_drop n (a :: l)
    · have hdl : ((a :: l).drop n).length = (a :: l).length - n :=
        List.length_drop n (a :: l)
      have hll : (a :: l).length ≤ fuel + 1 := hle
      omega

/-- Number of chunks of 99 for a nonempty list: `⌈length / 99⌉`. -/
theorem chunksAux_length_99 :
    ∀ (fuel : Nat) (l : List String), 0 < l.length → l.length ≤ fuel →
      (chunksAux 99 fuel l).length = (l.length + 98) / 99
  | _, [], hpos, _ => by simp at hpos
  | 0, a :: l, _, hle => by simp at hle
  | fuel + 1, a :: l, _, hle => by
    show ((a :: l).take 99 :: chunksAux 99 fuel ((a :: l).drop 99)).length = _
    rw [List.length_cons]
    have hdl : ((a :: l).drop 99).length = (a :: l).length - 99 :=
      List.length_drop 99 (a :: l)
    by_cases hlen : (a :: l).length ≤ 99
    · have hdrop : (a :: l).drop 99 = [] := by
        have : ((a :: l).drop 99).length = 0 := by omega
        exact List.eq_nil_of_length_eq_zero this
      rw [hdrop]
      have hnil : chunksAux 99 fuel ([] : List String) = [] := by
        cases fuel <;> rfl
      rw [hnil]
      have hone : (a :: l).length ≥ 1 := by simp
      simp only [List.length_nil]
      omega
    · have hlc : (a :: l).length = l.length + 1 := rfl
      have hrec := chunksAux_length_99 fuel ((a :: l).drop 99)
        (by omega) (by omega)
      rw [hrec, hdl]
      have : 100 ≤ (a :: l).length := by omega
      omega

/-- The chunking used by `checkCacheStatuses`, flattened. -/
theorem chunksOf_flatten (n : Nat) (hn : 0 < n) (l : List String) :
    (chunksOf n l).flatten = l :=
  chunksAux_flatten n hn l.length l le_rfl

/-- Chunk count of the 99-wise batch split. -/
theorem chunksOf_length_99 (l : List String) (h : 0 < l.length) :
    (chunksOf 99 l).length = (l.length + 98) / 99 :=
  chunksAux_length_99 l.length l h le_rfl

end Premiumize

namespace Premiumize

/-- C3: for a nodup hash list of more than 99 hashes with every chunk
succeeding, `checkCacheStatuses` issues exactly `⌈|H| / 99⌉` cache-check calls
(`(|H| + 98) / 99`), the keys of the returned mapping are exactly the input
hashes, and the `j`-th hash of each chunk is mapped to a record whose `cached`
flag is position `j` of that chunk's provider response. -/
theorem checkCacheStatuses_spec (api : List String → Option (List Bool))
    (hashes : List String) (hlen : 99 < hashes.length) (hnd : hashes.Nodup)
    (hok : ∀ b ∈ chunksOf 99 hashes, (api b).isSome = true) :
    (checkCacheStatuses api hashes).1 = (hashes.length + 98) / 99 ∧
    (∀ h, (alGet (checkCacheStatuses api hashes).2 h).isSome = true ↔
      h ∈ hashes) ∧
    (∀ b ∈ chunksOf 99 hashes, ∀ resp, api b = some resp →
      ∀ (j : Nat) (hj : j < b.length),
        alGet (checkCacheStatuses api hashes).2 (b.get ⟨j, hj⟩) =
          some (mkPMResult resp[j]?)) := by
  have hflat : (chunksOf 99 hashes).flatten = hashes :=
    chunksOf_flatten 99 (by omega) hashes
  have hnd2 : (chunksOf 99 hashes).flatten.Nodup := by rw [hflat]; exact hnd
  have hnj := List.nodup_flatten.1 hnd2
  refine ⟨?_, ?_, ?_⟩
  · show (runBatches api (chunksOf 99 hashes) 0 []).1 = _
    rw [runBatches_calls api _ 0 [] hok, Nat.zero_add,
      chunksOf_length_99 hashes (by omega)]
  · intro h
    show (alGet (runBatches api (chunksOf 99 hashes) 0 []).2 h).isSome = true ↔ _
    rw [runBatches_isSome api _ 0 [] h hok]
    have hempty : (alGet ([] : List (String × PMCacheResult)) h).isSome = false := rfl
    rw [hempty]
    simp only [Bool.false_eq_true, or_false]
    have hiff : (∃ b ∈ chunksOf 99 hashes, h ∈ b) ↔
        h ∈ (chunksOf 99 hashes).flatten := (List.mem_flatten).symm
    rw [hflat] at hiff
    exact hiff
  · intro b hb resp hresp j hj
    exact runBatches_get api _ 0 [] hok hnj.2 b hb (hnj.1 b hb) resp hresp j hj

/-- A 100-hash input (`h0` … `h99`) exercising the 99-wise chunking. -/
def hashList100 : List String :=
  (List.range 100).map (fun n => String.mk ('h' :: natChars n))

/-- C3, witness: 100 distinct hashes with an always-cached provider. -/
theorem checkCacheStatuses_spec_witness :
    (checkCacheStatuses (fun c => some (c.map (fun _ => true))) hashList100).1 =
      (hashList100.length + 98) / 99 ∧
    (∀ h, (alGet (checkCacheStatuses (fun c => some (c.map (fun _ => true)))
        hashList100).2 h).isSome = true ↔ h ∈ hashList100) ∧
    (∀ b ∈ chunksOf 99 hashList100,
      ∀ resp, (fun (c : List String) => some (c.map (fun _ => true))) b = some resp →
      ∀ (j : Nat) (hj : j < b.length),
        alGet (checkCacheStatuses (fun c => some (c.map (fun _ => true)))
            hashList100).2 (b.get ⟨j, hj⟩) =
          some (mkPMResult resp[j]?)) :=
  checkCacheStatuses_spec _ hashList100 (by decide) (by decide)
    (fun b _ => rfl)

end Premiumize

namespace Premiumize

/-- A failing chunk after a successful prefix: the catch returns the empty
map and the remaining chunks are never issued (`k + 1` calls in total). -/
theorem runBatches_failure (api : List String → Option (List Bool)) :
    ∀ (bs : List (List String)) (calls : Nat)
      (acc : List (String × PMCacheResult)) (k : Nat) (hk : k < bs.length),
      (∀ (i : Nat) (hi : i < k), (api (bs.get ⟨i, Nat.lt_trans hi hk⟩)).isSome = true) →
      api (bs.get ⟨k, hk⟩) = none →
      runBatches api bs calls acc = (calls + k + 1, [])
  | [], _, _, k, hk, _, _ => absurd hk (by simp)
  | b :: t, calls, acc, 0, _, _, hfail => by
    have : api b = none := hfail
    simp only [runBatches, this]
  | b :: t, calls, acc, k + 1, hk, hpre, hfail => by
    have hb : (api b).isSome = true := hpre 0 (Nat.succ_pos k)
    obtain ⟨resp, hresp⟩ := Option.isSome_iff_exists.1 hb
    simp only [runBatches, hresp]
    have hkt : k < t.length := by
      have hlc : (b :: t).length = t.length + 1 := rfl
      omega
    have hrec := runBatches_failure api t (calls + 1) (insertBatch resp 0 b acc) k
      hkt (fun i hi => hpre (i + 1) (Nat.succ_lt_succ hi)) hfail
    rw [hrec]
    have : calls + 1 + k + 1 = calls + (k + 1) + 1 := by omega
    rw [this]

/-- C4 (amended): if chunk `k` (zero-based) of the batched cache check fails
while chunks `0 … k−1` succeeded, `checkCacheStatuses` returns an empty result
map — the accumulated results of the earlier chunks are discarded by the
`catch` — and issues no further calls (`k + 1` calls in total, the failing one
included). -/
theorem checkCacheStatuses_chunk_failure (api : List String → Option (List Bool))
    (hashes : List String) (k : Nat) (hk : k < (chunksOf 99 hashes).length)
    (hpre : ∀ (i : Nat) (hi : i < k),
      (api ((chunksOf 99 hashes).get ⟨i, Nat.lt_trans hi hk⟩)).isSome = true)
    (hfail : api ((chunksOf 99 hashes).get ⟨k, hk⟩) = none) :
    checkCacheStatuses api hashes = (k + 1, []) := by
  show runBatches api (chunksOf 99 hashes) 0 [] = _
  rw [runBatches_failure api (chunksOf 99 hashes) 0 [] k hk hpre hfail,
    Nat.zero_add]

end Premiumize

/-- C4, counterexample.  100 hashes make two chunks (99 + 1); the provider
succeeds on the 99-hash chunk and fails on the second.  The claim promises the
first chunk's 99 accumulated results; the code issues both calls and then
returns the empty map, discarding them. -/
theorem checkCacheStatuses_discards_partial :
    ((Premiumize.chunksOf 99 Premiumize.hashList100).map
        (fun b => ((fun (c : List String) =>
          if c.length = 99 then some (List.replicate 99 true) else none) b).isSome)) =
      [true, false] ∧
    Premiumize.checkCacheStatuses
        (fun c => if c.length = 99 then some (List.replicate 99 true) else none)
        Premiumize.hashList100 = (2, []) := by
  decide

/-- C4 (amended), witness: the concrete two-chunk run above, through the
amended theorem. -/
theorem checkCacheStatuses_chunk_failure_witness :
    Premiumize.checkCacheStatuses
        (fun c => if c.length = 99 then some (List.replicate 99 true) else none)
        Premiumize.hashList100 = (1 + 1, []) :=
  Premiumize.checkCacheStatuses_chunk_failure _ _ 1 (by decide) (by decide)
    (by decide)
